import Mathlib

/-!
Shallow embedding of the Monkey lexer from `src/lexer.rs` (monkey-rs).

Bytes and characters are modelled as natural numbers holding their code
points.  The Rust lexer stores its input as `Vec<u8>` and converts bytes to
`char` with `b as char`, which is the identity on code points, so a single
`Nat` representation serves for both.  Token literals (`Vec<char>` in Rust)
become `List Nat`.
-/

/-- The `TokenType` enum of lexer.rs. -/
inductive TokenType where
  | Illegal
  | EOF
  | Ident
  | Int
  | Assign
  | Plus
  | Comma
  | Semicolon
  | LParen
  | RParen
  | LBrace
  | RBrace
  | Function
  | Let
deriving DecidableEq

/-- The `Token(TokenType, Vec<char>)` pair of lexer.rs: a kind together with
the literal text, the literal given as a list of char code points. -/
structure Token where
  kind : TokenType
  literal : List Nat
deriving DecidableEq

/-- The `Lexer` struct of lexer.rs: the byte buffer, the index of the current
char (`position`), the index of the next char to read (`read_position`), and
the char under examination (`ch`). -/
structure Lexer where
  input : List Nat
  position : Nat
  read_position : Nat
  ch : Nat
deriving DecidableEq

/-- The `is_letter` function of lexer.rs: `c.is_alphabetic() || c == '_'`.
`char::is_alphabetic` tests the Unicode Alphabetic property; the only
arguments ever passed are `self.ch as char` with `ch : u8`, i.e. code points
0..255, so the definition spells out the Unicode Alphabetic property
restricted to that range: A-Z, a-z, plus the Latin-1 letters 0xAA, 0xB5,
0xBA, 0xC0-0xD6, 0xD8-0xF6 and 0xF8-0xFF (0xD7 and 0xF7 are the
multiplication and division signs, which are not alphabetic). -/
def is_letter (c : Nat) : Bool :=
  ((65 ≤ c && c ≤ 90) || (97 ≤ c && c ≤ 122) ||
    c == 0xAA || c == 0xB5 || c == 0xBA ||
    (0xC0 ≤ c && c ≤ 0xD6) || (0xD8 ≤ c && c ≤ 0xF6) || (0xF8 ≤ c && c ≤ 0xFF))
  || c == 95

/-- The `is_number` function of lexer.rs: `c.is_digit(10)`, true exactly on
the ASCII digits. -/
def is_number (c : Nat) : Bool :=
  48 ≤ c && c ≤ 57

/-- The whitespace test inlined in `Lexer::consume_whitespace`:
`ch == b' ' || ch == b'\t' || ch == b'\n' || ch == b'\r'`. -/
def is_whitespace (c : Nat) : Bool :=
  c == 32 || c == 9 || c == 10 || c == 13

/-- The `is_keyword` function of lexer.rs: exact match of the scanned literal
against `"fn"` and `"let"` (code points [102,110] and [108,101,116]). -/
def is_keyword (s : List Nat) : Option Token :=
  if s = [102, 110] then some ⟨TokenType.Function, [102, 110]⟩
  else if s = [108, 101, 116] then some ⟨TokenType.Let, [108, 101, 116]⟩
  else none

/-- The `Lexer::read_char` method of lexer.rs: load the byte at
`read_position` (or the sentinel 0 past the end), move `position` up to
`read_position`, and advance `read_position`. -/
def read_char (l : Lexer) : Lexer :=
  { l with
    ch := if l.input.length ≤ l.read_position then 0 else l.input.getD l.read_position 0
    position := l.read_position
    read_position := l.read_position + 1 }

/-- The `Lexer::new` constructor of lexer.rs: both cursors at 0, then one
`read_char` to load the first character. -/
def Lexer.new (input : List Nat) : Lexer :=
  read_char { input := input, position := 0, read_position := 0, ch := 0 }

/-- The common shape of the three scanning loops of lexer.rs
(`consume_whitespace`, `read_identifier`, `read_number`): advance with
`read_char` while the current char satisfies `p`.  The extra `fuel` argument
bounds the number of iterations; every use passes `input.length + 2`, which
is never reached (`scan_go_stops` shows the guard fails before the fuel runs
out), so the fuel-indexed function agrees with the unbounded Rust loop. -/
def scan_go (p : Nat → Bool) : Nat → Lexer → Lexer
  | 0, l => l
  | fuel + 1, l => if p l.ch then scan_go p fuel (read_char l) else l

/-- The `Lexer::consume_whitespace` method of lexer.rs. -/
def consume_whitespace (l : Lexer) : Lexer :=
  scan_go is_whitespace (l.input.length + 2) l

/-- The `Lexer::read_identifier` method of lexer.rs: remember the starting
index, advance while `is_letter(self.ch)`, then slice
`input[position..self.position]` and view each byte as a char.  The Rust
slice panics unless `position ≤ self.position ≤ input.len()`; the theorem
for claim C10 shows those bounds hold at every reachable call site, so the
total `drop`/`take` rendering coincides with the Rust slice there. -/
def read_identifier (l : Lexer) : List Nat × Lexer :=
  let l2 := scan_go is_letter (l.input.length + 2) l
  ((l2.input.drop l.position).take (l2.position - l.position), l2)

/-- The `Lexer::read_number` method of lexer.rs: same shape as
`read_identifier` with `is_number` in place of `is_letter`. -/
def read_number (l : Lexer) : List Nat × Lexer :=
  let l2 := scan_go is_number (l.input.length + 2) l
  ((l2.input.drop l.position).take (l2.position - l.position), l2)

/-- The dispatch of `Lexer::next_token` (lexer.rs lines 80-106), i.e. the
body after the initial `consume_whitespace` call.  Single-char tokens and
the EOF token are followed by the trailing `self.read_char()`; the
identifier and number arms `return` early, without that trailing advance. -/
def next_token_core (l : Lexer) : Token × Lexer :=
  if l.ch = 61 then (⟨TokenType.Assign, [l.ch]⟩, read_char l)
  else if l.ch = 59 then (⟨TokenType.Semicolon, [l.ch]⟩, read_char l)
  else if l.ch = 40 then (⟨TokenType.LParen, [l.ch]⟩, read_char l)
  else if l.ch = 41 then (⟨TokenType.RParen, [l.ch]⟩, read_char l)
  else if l.ch = 44 then (⟨TokenType.Comma, [l.ch]⟩, read_char l)
  else if l.ch = 43 then (⟨TokenType.Plus, [l.ch]⟩, read_char l)
  else if l.ch = 123 then (⟨TokenType.LBrace, [l.ch]⟩, read_char l)
  else if l.ch = 125 then (⟨TokenType.RBrace, [l.ch]⟩, read_char l)
  else if l.ch = 0 then (⟨TokenType.EOF, [l.ch]⟩, read_char l)
  else if is_letter l.ch then
    match is_keyword (read_identifier l).1 with
    | some token => (token, (read_identifier l).2)
    | none => (⟨TokenType.Ident, (read_identifier l).1⟩, (read_identifier l).2)
  else if is_number l.ch then
    (⟨TokenType.Int, (read_number l).1⟩, (read_number l).2)
  else (⟨TokenType.Illegal, [l.ch]⟩, read_char l)

/-- The `Lexer::next_token` method of lexer.rs: skip whitespace, then
dispatch on the current char.  Returns the token together with the mutated
lexer. -/
def next_token (l : Lexer) : Token × Lexer :=
  next_token_core (consume_whitespace l)

/-- The single-character dispatch table of `next_token` (lexer.rs lines
81-89, the `b'\0'` arm, and the Illegal fallback) as a function of the char
code: the token kind produced by the arms that emit one token for the
current char and then advance once. -/
def single_kind (c : Nat) : TokenType :=
  if c = 61 then TokenType.Assign
  else if c = 59 then TokenType.Semicolon
  else if c = 40 then TokenType.LParen
  else if c = 41 then TokenType.RParen
  else if c = 44 then TokenType.Comma
  else if c = 43 then TokenType.Plus
  else if c = 123 then TokenType.LBrace
  else if c = 125 then TokenType.RBrace
  else if c = 0 then TokenType.EOF
  else TokenType.Illegal

/-- The collection loop of `Lexer::lex` (lexer.rs lines 133-141), indexed by
fuel.  Every use passes `input.length + 1` fuel, which is enough: each
`next_token` call strictly advances `position` and non-EOF calls keep
`position ≤ input.length` (`lex_go_fuel` shows any fuel of at least
`input.length + 1` yields the same list). -/
def lex_go : Nat → Lexer → List Token
  | 0, _ => []
  | fuel + 1, l =>
    if (next_token l).1.kind = TokenType.EOF then []
    else (next_token l).1 :: lex_go fuel (next_token l).2

/-- The `Lexer::lex` method of lexer.rs: collect the tokens returned by
repeated `next_token` calls, stopping at (and excluding) the first EOF
token. -/
def lex (input : List Nat) : List Token :=
  lex_go (input.length + 1) (Lexer.new input)

/-- The lexer state after `n` successive `next_token` calls starting from
`l`; `steps (Lexer.new input) n` ranges over exactly the reachable states of
the Rust lexer on `input`. -/
def steps (l : Lexer) : Nat → Lexer
  | 0 => l
  | n + 1 => (next_token (steps l n)).2

/-- Cursor coherence: `read_position` is one past `position`, and `ch` caches
the byte at `position` (0 past the end).  `read_char` establishes this from
any state, so it holds after construction and after every completed
`next_token` call. -/
def LexInv (l : Lexer) : Prop :=
  l.read_position = l.position + 1 ∧ l.ch = l.input.getD l.position 0

example : lex [61, 43, 40, 41, 123, 125, 44, 59] =
    [⟨TokenType.Assign, [61]⟩, ⟨TokenType.Plus, [43]⟩, ⟨TokenType.LParen, [40]⟩,
     ⟨TokenType.RParen, [41]⟩, ⟨TokenType.LBrace, [123]⟩, ⟨TokenType.RBrace, [125]⟩,
     ⟨TokenType.Comma, [44]⟩, ⟨TokenType.Semicolon, [59]⟩] := by decide

example : lex [108, 101, 116, 32, 102, 105, 118, 101, 32, 61, 32, 53, 59] =
    [⟨TokenType.Let, [108, 101, 116]⟩, ⟨TokenType.Ident, [102, 105, 118, 101]⟩,
     ⟨TokenType.Assign, [61]⟩, ⟨TokenType.Int, [53]⟩, ⟨TokenType.Semicolon, [59]⟩] := by
  decide

theorem read_char_input (l : Lexer) : (read_char l).input = l.input := rfl

theorem read_char_position (l : Lexer) : (read_char l).position = l.read_position := rfl

theorem read_char_read_position (l : Lexer) :
    (read_char l).read_position = l.read_position + 1 := rfl

theorem read_char_inv (l : Lexer) : LexInv (read_char l) := by
  refine ⟨rfl, ?_⟩
  show (if l.input.length ≤ l.read_position then 0 else l.input.getD l.read_position 0)
      = l.input.getD l.read_position 0
  split_ifs with h
  · exact (List.getD_eq_default _ _ h).symm
  · rfl

theorem new_inv (input : List Nat) : LexInv (Lexer.new input) := read_char_inv _

theorem inv_position_lt (l : Lexer) (h : LexInv l) (hch : l.ch ≠ 0) :
    l.position < l.input.length := by
  by_contra hle
  push_neg at hle
  exact hch (h.2.trans (List.getD_eq_default _ _ hle))

theorem inv_ch_zero (l : Lexer) (h : LexInv l) (hpos : l.input.length ≤ l.position) :
    l.ch = 0 :=
  h.2.trans (List.getD_eq_default _ _ hpos)

theorem is_whitespace_ne_zero (c : Nat) (h : is_whitespace c = true) : c ≠ 0 := by
  intro hc
  subst hc
  revert h
  decide

theorem is_letter_ne_zero (c : Nat) (h : is_letter c = true) : c ≠ 0 := by
  intro hc
  subst hc
  revert h
  decide

theorem is_number_ne_zero (c : Nat) (h : is_number c = true) : c ≠ 0 := by
  intro hc
  subst hc
  revert h
  decide

theorem is_letter_not_whitespace (c : Nat) (h : is_letter c = true) :
    is_whitespace c = false := by
  simp only [is_letter, Bool.or_eq_true, Bool.and_eq_true, decide_eq_true_eq,
    beq_iff_eq] at h
  simp only [is_whitespace, Bool.or_eq_false_iff, beq_eq_false_iff_ne, ne_eq]
  omega

theorem is_letter_not_punct (c : Nat) (h : is_letter c = true) :
    c ≠ 61 ∧ c ≠ 59 ∧ c ≠ 40 ∧ c ≠ 41 ∧ c ≠ 44 ∧ c ≠ 43 ∧ c ≠ 123 ∧ c ≠ 125 ∧ c ≠ 0 := by
  simp only [is_letter, Bool.or_eq_true, Bool.and_eq_true, decide_eq_true_eq,
    beq_iff_eq] at h
  omega

theorem is_number_not_letter (c : Nat) (h : is_number c = true) : is_letter c = false := by
  simp only [is_number, Bool.and_eq_true, decide_eq_true_eq] at h
  by_contra hq
  simp only [Bool.not_eq_false] at hq
  simp only [is_letter, Bool.or_eq_true, Bool.and_eq_true, decide_eq_true_eq,
    beq_iff_eq] at hq
  omega

theorem getD_eq_headD_drop (xs : List Nat) (p : Nat) :
    xs.getD p 0 = (xs.drop p).headD 0 := by
  induction xs generalizing p with
  | nil => cases p <;> rfl
  | cons a t ih =>
    cases p with
    | zero => rfl
    | succ p => exact ih p

theorem scan_go_input (p : Nat → Bool) : ∀ (f : Nat) (l : Lexer),
    (scan_go p f l).input = l.input := by
  intro f
  induction f with
  | zero => intro l; rfl
  | succ f ih =>
    intro l
    show (if p l.ch then scan_go p f (read_char l) else l).input = l.input
    split_ifs with hg
    · exact ih (read_char l)
    · rfl

theorem scan_go_inv (p : Nat → Bool) : ∀ (f : Nat) (l : Lexer),
    LexInv l → LexInv (scan_go p f l) := by
  intro f
  induction f with
  | zero => intro l h; exact h
  | succ f ih =>
    intro l h
    show LexInv (if p l.ch then scan_go p f (read_char l) else l)
    split_ifs with hg
    · exact ih _ (read_char_inv l)
    · exact h

theorem scan_go_pos_ge (p : Nat → Bool) : ∀ (f : Nat) (l : Lexer),
    LexInv l → l.position ≤ (scan_go p f l).position := by
  intro f
  induction f with
  | zero => intro l _; exact le_refl _
  | succ f ih =>
    intro l h
    show l.position ≤ (if p l.ch then scan_go p f (read_char l) else l).position
    split_ifs with hg
    · have h1 : l.position ≤ (read_char l).position := by
        rw [read_char_position, h.1]
        omega
      exact h1.trans (ih _ (read_char_inv l))
    · exact le_refl _

theorem scan_go_pos_le (p : Nat → Bool) (hp : ∀ c, p c = true → c ≠ 0) :
    ∀ (f : Nat) (l : Lexer), LexInv l → l.position ≤ l.input.length →
      (scan_go p f l).position ≤ l.input.length := by
  intro f
  induction f with
  | zero => intro l _ hpos; exact hpos
  | succ f ih =>
    intro l h hpos
    show (if p l.ch then scan_go p f (read_char l) else l).position ≤ l.input.length
    split_ifs with hg
    · have hlt := inv_position_lt l h (hp _ hg)
      have := ih (read_char l) (read_char_inv l)
        (by rw [read_char_input, read_char_position, h.1]; omega)
      rwa [read_char_input] at this
    · exact hpos

theorem scan_go_stops (p : Nat → Bool) (hp : ∀ c, p c = true → c ≠ 0) :
    ∀ (f : Nat) (l : Lexer), LexInv l → l.input.length + 1 ≤ l.position + f →
      p (scan_go p f l).ch = false := by
  intro f
  induction f with
  | zero =>
    intro l h hf
    have h0 : l.ch = 0 := inv_ch_zero l h (by omega)
    by_contra hq
    simp only [Bool.not_eq_false] at hq
    exact hp _ hq h0
  | succ f ih =>
    intro l h hf
    show p (if p l.ch then scan_go p f (read_char l) else l).ch = false
    split_ifs with hg
    · apply ih (read_char l) (read_char_inv l)
      rw [read_char_input, read_char_position, h.1]
      omega
    · simp only [Bool.not_eq_true] at hg
      exact hg

theorem scan_go_of_neg (p : Nat → Bool) (f : Nat) (l : Lexer) (h : p l.ch = false) :
    scan_go p f l = l := by
  cases f with
  | zero => rfl
  | succ f =>
    show (if p l.ch then scan_go p f (read_char l) else l) = l
    simp [h]

theorem scan_go_fuel (p : Nat → Bool) (hp : ∀ c, p c = true → c ≠ 0) :
    ∀ (f f' : Nat) (l : Lexer), LexInv l → l.input.length + 1 ≤ l.position + f →
      l.input.length + 1 ≤ l.position + f' → scan_go p f l = scan_go p f' l := by
  intro f
  induction f with
  | zero =>
    intro f' l h hf hf'
    have h0 : l.ch = 0 := inv_ch_zero l h (by omega)
    have hz : p l.ch = false := by
      by_contra hq
      simp only [Bool.not_eq_false] at hq
      exact hp _ hq h0
    rw [scan_go_of_neg p 0 l hz, scan_go_of_neg p f' l hz]
  | succ f ih =>
    intro f' l h hf hf'
    by_cases hg : p l.ch = true
    · have hlt := inv_position_lt l h (hp _ hg)
      obtain ⟨g, rfl⟩ : ∃ g, f' = g + 1 := by
        cases f' with
        | zero => omega
        | succ g => exact ⟨g, rfl⟩
      show (if p l.ch then scan_go p f (read_char l) else l)
          = (if p l.ch then scan_go p g (read_char l) else l)
      simp only [hg, if_true]
      apply ih g (read_char l) (read_char_inv l) <;>
        rw [read_char_input, read_char_position, h.1] <;> omega
    · simp only [Bool.not_eq_true] at hg
      rw [scan_go_of_neg p _ l hg, scan_go_of_neg p _ l hg]

theorem scan_go_pos_succ (p : Nat → Bool) (f : Nat) (l : Lexer) (h : LexInv l)
    (hg : p l.ch = true) (hf : 1 ≤ f) :
    l.position + 1 ≤ (scan_go p f l).position := by
  cases f with
  | zero => omega
  | succ f =>
    show l.position + 1 ≤ (if p l.ch then scan_go p f (read_char l) else l).position
    simp only [hg, if_true]
    have h1 := scan_go_pos_ge p f (read_char l) (read_char_inv l)
    rw [read_char_position, h.1] at h1
    exact h1

theorem scan_go_run (p : Nat → Bool) :
    ∀ (run rest : List Nat) (f : Nat) (l : Lexer), LexInv l →
      (∀ b ∈ run, p b = true) → p (rest.headD 0) = false →
      l.input.drop l.position = run ++ rest → run.length ≤ f →
      (scan_go p f l).position = l.position + run.length := by
  intro run
  induction run with
  | nil =>
    intro rest f l h _ hrest hdrop _
    have hch : l.ch = rest.headD 0 := by
      rw [h.2, getD_eq_headD_drop, hdrop]
      rfl
    rw [scan_go_of_neg p f l (by rw [hch]; exact hrest)]
    simp
  | cons b run ih =>
    intro rest f l h hrun hrest hdrop hf
    have hch : l.ch = b := by
      rw [h.2, getD_eq_headD_drop, hdrop]
      rfl
    obtain ⟨g, rfl⟩ : ∃ g, f = g + 1 := by
      cases f with
      | zero => simp at hf
      | succ g => exact ⟨g, rfl⟩
    show (if p l.ch then scan_go p g (read_char l) else l).position
        = l.position + (b :: run).length
    rw [hch]
    simp only [hrun b (List.mem_cons_self b run), if_true]
    have hdrop2 : (read_char l).input.drop (read_char l).position = run ++ rest := by
      rw [read_char_input, read_char_position, h.1]
      have hd : (l.input.drop l.position).drop 1 = l.input.drop (l.position + 1) := by
        rw [List.drop_drop, Nat.add_comm]
      rw [← hd, hdrop]
      rfl
    have hrec := ih rest g (read_char l) (read_char_inv l)
      (fun x hx => hrun x (List.mem_cons_of_mem b hx)) hrest hdrop2 (by
        simp only [List.length_cons] at hf
        omega)
    rw [hrec, read_char_position, h.1]
    simp only [List.length_cons]
    omega

theorem consume_whitespace_input (l : Lexer) :
    (consume_whitespace l).input = l.input :=
  scan_go_input _ _ _

theorem consume_whitespace_inv (l : Lexer) (h : LexInv l) :
    LexInv (consume_whitespace l) :=
  scan_go_inv _ _ _ h

theorem consume_whitespace_of_neg (l : Lexer) (h : is_whitespace l.ch = false) :
    consume_whitespace l = l :=
  scan_go_of_neg _ _ _ h

theorem is_keyword_kind (s : List Nat) (t : Token) (hk : is_keyword s = some t) :
    t.kind = TokenType.Function ∨ t.kind = TokenType.Let := by
  unfold is_keyword at hk
  split_ifs at hk with ha hb
  · injection hk with h2
    subst h2
    exact Or.inl rfl
  · injection hk with h2
    subst h2
    exact Or.inr rfl

theorem read_identifier_snd (l : Lexer) :
    (read_identifier l).2 = scan_go is_letter (l.input.length + 2) l := rfl

theorem read_number_snd (l : Lexer) :
    (read_number l).2 = scan_go is_number (l.input.length + 2) l := rfl

theorem read_identifier_fst (l : Lexer) :
    (read_identifier l).1 =
      ((scan_go is_letter (l.input.length + 2) l).input.drop l.position).take
        ((scan_go is_letter (l.input.length + 2) l).position - l.position) := rfl

theorem read_number_fst (l : Lexer) :
    (read_number l).1 =
      ((scan_go is_number (l.input.length + 2) l).input.drop l.position).take
        ((scan_go is_number (l.input.length + 2) l).position - l.position) := rfl

theorem is_number_not_punct (c : Nat) (h : is_number c = true) :
    c ≠ 61 ∧ c ≠ 59 ∧ c ≠ 40 ∧ c ≠ 41 ∧ c ≠ 44 ∧ c ≠ 43 ∧ c ≠ 123 ∧ c ≠ 125 ∧ c ≠ 0 := by
  simp only [is_number, Bool.and_eq_true, decide_eq_true_eq] at h
  omega

theorem next_token_core_eof (l : Lexer) (h : l.ch = 0) :
    next_token_core l = (⟨TokenType.EOF, [0]⟩, read_char l) := by
  unfold next_token_core
  rw [h]
  rw [if_neg (by decide), if_neg (by decide), if_neg (by decide), if_neg (by decide),
    if_neg (by decide), if_neg (by decide), if_neg (by decide), if_neg (by decide),
    if_pos rfl]

theorem next_token_core_letter_some (l : Lexer) (hl : is_letter l.ch = true) (t : Token)
    (hk : is_keyword (read_identifier l).1 = some t) :
    next_token_core l = (t, (read_identifier l).2) := by
  obtain ⟨p1, p2, p3, p4, p5, p6, p7, p8, p0⟩ := is_letter_not_punct l.ch hl
  unfold next_token_core
  rw [if_neg p1, if_neg p2, if_neg p3, if_neg p4, if_neg p5, if_neg p6, if_neg p7,
    if_neg p8, if_neg p0, if_pos hl, hk]

theorem next_token_core_letter_none (l : Lexer) (hl : is_letter l.ch = true)
    (hk : is_keyword (read_identifier l).1 = none) :
    next_token_core l = (⟨TokenType.Ident, (read_identifier l).1⟩, (read_identifier l).2) := by
  obtain ⟨p1, p2, p3, p4, p5, p6, p7, p8, p0⟩ := is_letter_not_punct l.ch hl
  unfold next_token_core
  rw [if_neg p1, if_neg p2, if_neg p3, if_neg p4, if_neg p5, if_neg p6, if_neg p7,
    if_neg p8, if_neg p0, if_pos hl, hk]

theorem next_token_core_number (l : Lexer) (hnl : is_letter l.ch = false)
    (hn : is_number l.ch = true) :
    next_token_core l = (⟨TokenType.Int, (read_number l).1⟩, (read_number l).2) := by
  obtain ⟨p1, p2, p3, p4, p5, p6, p7, p8, p0⟩ := is_number_not_punct l.ch hn
  unfold next_token_core
  rw [if_neg p1, if_neg p2, if_neg p3, if_neg p4, if_neg p5, if_neg p6, if_neg p7,
    if_neg p8, if_neg p0, if_neg (by simp [hnl]), if_pos hn]

theorem next_token_core_illegal (l : Lexer) (h0 : l.ch ≠ 0)
    (hp : l.ch ≠ 61 ∧ l.ch ≠ 59 ∧ l.ch ≠ 40 ∧ l.ch ≠ 41 ∧ l.ch ≠ 44 ∧ l.ch ≠ 43 ∧
      l.ch ≠ 123 ∧ l.ch ≠ 125)
    (hnl : is_letter l.ch = false) (hnn : is_number l.ch = false) :
    next_token_core l = (⟨TokenType.Illegal, [l.ch]⟩, read_char l) := by
  obtain ⟨p1, p2, p3, p4, p5, p6, p7, p8⟩ := hp
  unfold next_token_core
  rw [if_neg p1, if_neg p2, if_neg p3, if_neg p4, if_neg p5, if_neg p6, if_neg p7,
    if_neg p8, if_neg h0, if_neg (by simp [hnl]), if_neg (by simp [hnn])]

theorem next_token_core_single (l : Lexer) (hnl : is_letter l.ch = false)
    (hnn : is_number l.ch = false) :
    next_token_core l = (⟨single_kind l.ch, [l.ch]⟩, read_char l) ∧
    (single_kind l.ch = TokenType.EOF ↔ l.ch = 0) := by
  by_cases h0 : l.ch = 0
  · have hsk : single_kind l.ch = TokenType.EOF := by
      unfold single_kind
      rw [h0]
      decide
    constructor
    · rw [next_token_core_eof l h0, hsk, h0]
    · rw [hsk]
      simp [h0]
  by_cases h1 : l.ch = 61
  · have hsk : single_kind l.ch = TokenType.Assign := by
      unfold single_kind
      rw [if_pos h1]
    refine ⟨?_, ?_⟩
    · unfold next_token_core
      rw [if_pos h1, hsk]
    · rw [hsk]
      exact ⟨fun hq => absurd hq (by decide), fun hq => absurd hq h0⟩
  by_cases h2 : l.ch = 59
  · have hsk : single_kind l.ch = TokenType.Semicolon := by
      unfold single_kind
      rw [if_neg h1, if_pos h2]
    refine ⟨?_, ?_⟩
    · unfold next_token_core
      rw [if_neg h1, if_pos h2, hsk]
    · rw [hsk]
      exact ⟨fun hq => absurd hq (by decide), fun hq => absurd hq h0⟩
  by_cases h3 : l.ch = 40
  · have hsk : single_kind l.ch = TokenType.LParen := by
      unfold single_kind
      rw [if_neg h1, if_neg h2, if_pos h3]
    refine ⟨?_, ?_⟩
    · unfold next_token_core
      rw [if_neg h1, if_neg h2, if_pos h3, hsk]
    · rw [hsk]
      exact ⟨fun hq => absurd hq (by decide), fun hq => absurd hq h0⟩
  by_cases h4 : l.ch = 41
  · have hsk : single_kind l.ch = TokenType.RParen := by
      unfold single_kind
      rw [if_neg h1, if_neg h2, if_neg h3, if_pos h4]
    refine ⟨?_, ?_⟩
    · unfold next_token_core
      rw [if_neg h1, if_neg h2, if_neg h3, if_pos h4, hsk]
    · rw [hsk]
      exact ⟨fun hq => absurd hq (by decide), fun hq => absurd hq h0⟩
  by_cases h5 : l.ch = 44
  · have hsk : single_kind l.ch = TokenType.Comma := by
      unfold single_kind
      rw [if_neg h1, if_neg h2, if_neg h3, if_neg h4, if_pos h5]
    refine ⟨?_, ?_⟩
    · unfold next_token_core
      rw [if_neg h1, if_neg h2, if_neg h3, if_neg h4, if_pos h5, hsk]
    · rw [hsk]
      exact ⟨fun hq => absurd hq (by decide), fun hq => absurd hq h0⟩
  by_cases h6 : l.ch = 43
  · have hsk : single_kind l.ch = TokenType.Plus := by
      unfold single_kind
      rw [if_neg h1, if_neg h2, if_neg h3, if_neg h4, if_neg h5, if_pos h6]
    refine ⟨?_, ?_⟩
    · unfold next_token_core
      rw [if_neg h1, if_neg h2, if_neg h3, if_neg h4, if_neg h5, if_pos h6, hsk]
    · rw [hsk]
      exact ⟨fun hq => absurd hq (by decide), fun hq => absurd hq h0⟩
  by_cases h7 : l.ch = 123
  · have hsk : single_kind l.ch = TokenType.LBrace := by
      unfold single_kind
      rw [if_neg h1, if_neg h2, if_neg h3, if_neg h4, if_neg h5, if_neg h6, if_pos h7]
    refine ⟨?_, ?_⟩
    · unfold next_token_core
      rw [if_neg h1, if_neg h2, if_neg h3, if_neg h4, if_neg h5, if_neg h6, if_pos h7,
        hsk]
    · rw [hsk]
      exact ⟨fun hq => absurd hq (by decide), fun hq => absurd hq h0⟩
  by_cases h8 : l.ch = 125
  · have hsk : single_kind l.ch = TokenType.RBrace := by
      unfold single_kind
      rw [if_neg h1, if_neg h2, if_neg h3, if_neg h4, if_neg h5, if_neg h6, if_neg h7,
        if_pos h8]
    refine ⟨?_, ?_⟩
    · unfold next_token_core
      rw [if_neg h1, if_neg h2, if_neg h3, if_neg h4, if_neg h5, if_neg h6, if_neg h7,
        if_pos h8, hsk]
    · rw [hsk]
      exact ⟨fun hq => absurd hq (by decide), fun hq => absurd hq h0⟩
  · have hsk : single_kind l.ch = TokenType.Illegal := by
      unfold single_kind
      rw [if_neg h1, if_neg h2, if_neg h3, if_neg h4, if_neg h5, if_neg h6, if_neg h7,
        if_neg h8, if_neg h0]
    refine ⟨?_, ?_⟩
    · rw [hsk]
      exact next_token_core_illegal l h0 ⟨h1, h2, h3, h4, h5, h6, h7, h8⟩ hnl hnn
    · rw [hsk]
      exact ⟨fun hq => absurd hq (by decide), fun hq => absurd hq h0⟩

theorem next_token_core_shape (l : Lexer) :
    ((next_token_core l).2 = read_char l ∧
        ((next_token_core l).1.kind = TokenType.EOF ↔ l.ch = 0)) ∨
    (is_letter l.ch = true ∧ (next_token_core l).1.kind ≠ TokenType.EOF ∧
        (next_token_core l).2 = (read_identifier l).2) ∨
    (is_number l.ch = true ∧ (next_token_core l).1.kind ≠ TokenType.EOF ∧
        (next_token_core l).2 = (read_number l).2) := by
  by_cases hl : is_letter l.ch = true
  · right
    left
    have hres : (next_token_core l).1.kind ≠ TokenType.EOF ∧
        (next_token_core l).2 = (read_identifier l).2 := by
      cases hk : is_keyword (read_identifier l).1 with
      | none =>
        rw [next_token_core_letter_none l hl hk]
        exact ⟨fun hq => TokenType.noConfusion hq, rfl⟩
      | some t =>
        rw [next_token_core_letter_some l hl t hk]
        refine ⟨?_, rfl⟩
        show t.kind ≠ TokenType.EOF
        rcases is_keyword_kind _ _ hk with hk2 | hk2 <;> rw [hk2] <;>
          exact fun hq => TokenType.noConfusion hq
    exact ⟨hl, hres.1, hres.2⟩
  · have hnl : is_letter l.ch = false := by simpa using hl
    by_cases hn : is_number l.ch = true
    · right
      right
      rw [next_token_core_number l hnl hn]
      exact ⟨hn, fun hq => TokenType.noConfusion hq, rfl⟩
    · have hnn : is_number l.ch = false := by simpa using hn
      left
      obtain ⟨hk, hiff⟩ := next_token_core_single l hnl hnn
      rw [hk]
      exact ⟨rfl, hiff⟩

theorem next_token_core_input (l : Lexer) : (next_token_core l).2.input = l.input := by
  rcases next_token_core_shape l with ⟨h2, _⟩ | ⟨_, _, h2⟩ | ⟨_, _, h2⟩ <;> rw [h2]
  · exact read_char_input l
  · rw [read_identifier_snd]
    exact scan_go_input _ _ _
  · rw [read_number_snd]
    exact scan_go_input _ _ _

theorem next_token_core_inv (l : Lexer) (h : LexInv l) : LexInv (next_token_core l).2 := by
  rcases next_token_core_shape l with ⟨h2, _⟩ | ⟨_, _, h2⟩ | ⟨_, _, h2⟩ <;> rw [h2]
  · exact read_char_inv l
  · rw [read_identifier_snd]
    exact scan_go_inv _ _ _ h
  · rw [read_number_snd]
    exact scan_go_inv _ _ _ h

theorem next_token_core_pos_gt (l : Lexer) (h : LexInv l) :
    l.position + 1 ≤ (next_token_core l).2.position := by
  rcases next_token_core_shape l with ⟨h2, _⟩ | ⟨hg, _, h2⟩ | ⟨hg, _, h2⟩ <;> rw [h2]
  · rw [read_char_position, h.1]
  · rw [read_identifier_snd]
    exact scan_go_pos_succ _ _ l h hg (by omega)
  · rw [read_number_snd]
    exact scan_go_pos_succ _ _ l h hg (by omega)

theorem next_token_core_pos_le (l : Lexer) (h : LexInv l)
    (hpos : l.position ≤ l.input.length)
    (hne : (next_token_core l).1.kind ≠ TokenType.EOF) :
    (next_token_core l).2.position ≤ l.input.length := by
  rcases next_token_core_shape l with ⟨h2, hiff⟩ | ⟨_, _, h2⟩ | ⟨_, _, h2⟩ <;> rw [h2]
  · rw [read_char_position, h.1]
    exact inv_position_lt l h fun hzero => hne (hiff.mpr hzero)
  · rw [read_identifier_snd]
    exact scan_go_pos_le _ is_letter_ne_zero _ l h hpos
  · rw [read_number_snd]
    exact scan_go_pos_le _ is_number_ne_zero _ l h hpos

theorem next_token_core_ne_eof (l : Lexer) (h : l.ch ≠ 0) :
    (next_token_core l).1.kind ≠ TokenType.EOF := by
  rcases next_token_core_shape l with ⟨_, hiff⟩ | ⟨_, hne, _⟩ | ⟨_, hne, _⟩
  · exact fun hq => h (hiff.mp hq)
  · exact hne
  · exact hne

theorem next_token_input (l : Lexer) : (next_token l).2.input = l.input := by
  show (next_token_core (consume_whitespace l)).2.input = l.input
  rw [next_token_core_input, consume_whitespace_input]

theorem next_token_inv (l : Lexer) (h : LexInv l) : LexInv (next_token l).2 :=
  next_token_core_inv _ (consume_whitespace_inv l h)

theorem next_token_pos_gt (l : Lexer) (h : LexInv l) :
    l.position + 1 ≤ (next_token l).2.position := by
  have h1 := scan_go_pos_ge is_whitespace (l.input.length + 2) l h
  have h2 := next_token_core_pos_gt (consume_whitespace l) (consume_whitespace_inv l h)
  exact (Nat.add_le_add_right h1 1).trans h2

theorem next_token_pos_le (l : Lexer) (h : LexInv l)
    (hpos : l.position ≤ l.input.length)
    (hne : (next_token l).1.kind ≠ TokenType.EOF) :
    (next_token l).2.position ≤ l.input.length := by
  have hcw := consume_whitespace_inv l h
  have hcwpos : (consume_whitespace l).position ≤ (consume_whitespace l).input.length := by
    rw [consume_whitespace_input]
    exact scan_go_pos_le _ is_whitespace_ne_zero _ l h hpos
  have hfin := next_token_core_pos_le _ hcw hcwpos hne
  rwa [consume_whitespace_input] at hfin

theorem next_token_exhausted (l : Lexer) (h : LexInv l)
    (hpos : l.input.length ≤ l.position) :
    next_token l = (⟨TokenType.EOF, [0]⟩, read_char l) := by
  have h0 : l.ch = 0 := inv_ch_zero l h hpos
  have hcw : consume_whitespace l = l :=
    consume_whitespace_of_neg l (by rw [h0]; decide)
  show next_token_core (consume_whitespace l) = _
  rw [hcw]
  exact next_token_core_eof l h0

theorem steps_input (l : Lexer) : ∀ n, (steps l n).input = l.input := by
  intro n
  induction n with
  | zero => rfl
  | succ n ih =>
    show (next_token (steps l n)).2.input = l.input
    rw [next_token_input, ih]

theorem steps_inv (l : Lexer) (h : LexInv l) : ∀ n, LexInv (steps l n) := by
  intro n
  induction n with
  | zero => exact h
  | succ n ih => exact next_token_inv _ ih

theorem next_token_run (run rest : List Nat) (hne : run ≠ [])
    (hrun : ∀ b ∈ run, is_letter b = true)
    (hrest : is_letter (rest.headD 0) = false) :
    (next_token (Lexer.new (run ++ rest))).1 =
      (match is_keyword run with
        | some t => t
        | none => ⟨TokenType.Ident, run⟩) ∧
    (next_token (Lexer.new (run ++ rest))).2.position = run.length := by
  obtain ⟨b, run', rfl⟩ : ∃ b run', run = b :: run' := by
    cases run with
    | nil => exact absurd rfl hne
    | cons b r => exact ⟨b, r, rfl⟩
  set l0 := Lexer.new ((b :: run') ++ rest) with hl0
  have hinv : LexInv l0 := new_inv _
  have hch : l0.ch = b := by
    show (read_char (Lexer.mk ((b :: run') ++ rest) 0 0 0)).ch = b
    simp [read_char]
  have hlb : is_letter b = true := hrun b (List.mem_cons_self _ _)
  have hcw : consume_whitespace l0 = l0 :=
    consume_whitespace_of_neg l0 (by rw [hch]; exact is_letter_not_whitespace b hlb)
  have hl : is_letter l0.ch = true := by
    rw [hch]
    exact hlb
  have hdrop : l0.input.drop l0.position = (b :: run') ++ rest := rfl
  have hfuel : (b :: run').length ≤ l0.input.length + 2 := by
    show _ ≤ ((b :: run') ++ rest).length + 2
    rw [List.length_append]
    omega
  have hscan := scan_go_run is_letter (b :: run') rest (l0.input.length + 2) l0 hinv hrun
    hrest hdrop hfuel
  have hid1 : (read_identifier l0).1 = b :: run' := by
    rw [read_identifier_fst, scan_go_input, hscan]
    show (((b :: run') ++ rest).drop 0).take (0 + (b :: run').length - 0) = b :: run'
    simp [List.take_left]
  have hid2 : (read_identifier l0).2.position = (b :: run').length := by
    rw [read_identifier_snd, hscan]
    show 0 + _ = _
    omega
  show (next_token_core (consume_whitespace l0)).1 = _ ∧
    (next_token_core (consume_whitespace l0)).2.position = _
  rw [hcw]
  cases hk : is_keyword (b :: run') with
  | some t =>
    have hk2 : is_keyword (read_identifier l0).1 = some t := by
      rw [hid1]
      exact hk
    rw [next_token_core_letter_some l0 hl t hk2]
    exact ⟨rfl, hid2⟩
  | none =>
    have hk2 : is_keyword (read_identifier l0).1 = none := by
      rw [hid1]
      exact hk
    rw [next_token_core_letter_none l0 hl hk2]
    exact ⟨by rw [hid1], hid2⟩

/-- C1: on an input that starts with a nonempty maximal run of ASCII letters
and underscores (the following byte, if any, is not a letter — in particular
a decimal digit ends the run and stays out of the literal), and whose run is
neither `fn` nor `let`, `next_token` returns a single Identifier token whose
literal is the whole run, consuming exactly the run. -/
theorem identifier_run (run rest : List Nat) (hne : run ≠ [])
    (hascii : ∀ b ∈ run, (65 ≤ b ∧ b ≤ 90) ∨ (97 ≤ b ∧ b ≤ 122) ∨ b = 95)
    (hrest : is_letter (rest.headD 0) = false)
    (hfn : run ≠ [102, 110]) (hlet : run ≠ [108, 101, 116]) :
    (next_token (Lexer.new (run ++ rest))).1 = ⟨TokenType.Ident, run⟩ ∧
    (next_token (Lexer.new (run ++ rest))).2.position = run.length ∧
    (∀ d, is_number d = true → is_letter d = false) := by
  have hrun : ∀ b ∈ run, is_letter b = true := by
    intro b hb
    simp only [is_letter, Bool.or_eq_true, Bool.and_eq_true, decide_eq_true_eq,
      beq_iff_eq]
    rcases hascii b hb with h | h | h <;> omega
  have hk : is_keyword run = none := by
    unfold is_keyword
    rw [if_neg hfn, if_neg hlet]
  have hmain := next_token_run run rest hne hrun hrest
  rw [hk] at hmain
  exact ⟨hmain.1, hmain.2, is_number_not_letter⟩

/-- Witness for C1 at the input "a1": one Identifier token with literal "a",
the digit "1" ends the identifier and is not part of its literal. -/
theorem identifier_run_witness :
    (next_token (Lexer.new ([97] ++ [49]))).1 = ⟨TokenType.Ident, [97]⟩ ∧
    (next_token (Lexer.new ([97] ++ [49]))).2.position = 1 ∧
    (∀ d, is_number d = true → is_letter d = false) :=
  identifier_run [97] [49] (by decide) (by decide) (by decide) (by decide) (by decide)

/-- C2: a maximal letter run equal to `fn` yields a FunctionKeyword token and
a run equal to `let` yields a LetKeyword token — never Identifier — in any
context, and the keyword lookup is exact-string and case-sensitive, matching
nothing but those two literals. -/
theorem keyword_exact (rest : List Nat) (hrest : is_letter (rest.headD 0) = false) :
    (next_token (Lexer.new ([102, 110] ++ rest))).1 =
      ⟨TokenType.Function, [102, 110]⟩ ∧
    (next_token (Lexer.new ([108, 101, 116] ++ rest))).1 =
      ⟨TokenType.Let, [108, 101, 116]⟩ ∧
    (∀ s : List Nat, s ≠ [102, 110] → s ≠ [108, 101, 116] → is_keyword s = none) := by
  have h1 := next_token_run [102, 110] rest (by decide) (by decide) hrest
  have h2 := next_token_run [108, 101, 116] rest (by decide) (by decide) hrest
  refine ⟨h1.1, h2.1, ?_⟩
  intro s hs1 hs2
  unfold is_keyword
  rw [if_neg hs1, if_neg hs2]

/-- Witness for C2: `fn` and `let` at end of input yield the keyword tokens,
and the lookup rejects "FN" (case), "f" (prefix) and "fnx" (extension). -/
theorem keyword_exact_witness :
    (next_token (Lexer.new ([102, 110] ++ []))).1 =
      ⟨TokenType.Function, [102, 110]⟩ ∧
    (next_token (Lexer.new ([108, 101, 116] ++ []))).1 =
      ⟨TokenType.Let, [108, 101, 116]⟩ ∧
    is_keyword [70, 78] = none ∧ is_keyword [102] = none ∧
    is_keyword [102, 110, 120] = none := by
  have h := keyword_exact [] (by decide)
  exact ⟨h.1, h.2.1, h.2.2 _ (by decide) (by decide), h.2.2 _ (by decide) (by decide),
    h.2.2 _ (by decide) (by decide)⟩

/-- C3 counterexample: the byte 0x00 is not whitespace, not one of the eight
punctuation characters, not a letter and not a digit, yet on the input
consisting of that single byte `next_token` returns an EndOfInput token, not
an Illegal token — the sentinel byte escapes the claimed rule. -/
theorem illegal_byte_cex :
    is_whitespace 0 = false ∧ is_letter 0 = false ∧ is_number 0 = false ∧
    ((0 : Nat) ≠ 61 ∧ (0 : Nat) ≠ 59 ∧ (0 : Nat) ≠ 40 ∧ (0 : Nat) ≠ 41 ∧
      (0 : Nat) ≠ 44 ∧ (0 : Nat) ≠ 43 ∧ (0 : Nat) ≠ 123 ∧ (0 : Nat) ≠ 125) ∧
    (next_token (Lexer.new [0])).1.kind = TokenType.EOF ∧
    (next_token (Lexer.new [0])).1.kind ≠ TokenType.Illegal := by decide

/-- C3 amended: for every nonzero byte that is not whitespace, not one of the
eight punctuation characters, not a letter and not a digit, `next_token`
returns a single Illegal token whose literal is exactly that character, and
the scanner resumes at the following character: the post state is one
`read_char` advance past the offending byte, with the cursor invariant
intact, so the next call proceeds normally (no abort, no exception). -/
theorem illegal_byte_amended (l : Lexer) (b : Nat) (hb : l.ch = b) (h0 : b ≠ 0)
    (hws : is_whitespace b = false)
    (hp : b ≠ 61 ∧ b ≠ 59 ∧ b ≠ 40 ∧ b ≠ 41 ∧ b ≠ 44 ∧ b ≠ 43 ∧ b ≠ 123 ∧ b ≠ 125)
    (hnl : is_letter b = false) (hnn : is_number b = false) :
    next_token l = (⟨TokenType.Illegal, [b]⟩, read_char l) ∧
    (LexInv l → (next_token l).2.position = l.position + 1 ∧ LexInv (next_token l).2) := by
  subst hb
  have hcw : consume_whitespace l = l := consume_whitespace_of_neg l hws
  have hmain : next_token l = (⟨TokenType.Illegal, [l.ch]⟩, read_char l) := by
    show next_token_core (consume_whitespace l) = _
    rw [hcw]
    exact next_token_core_illegal l h0 hp hnl hnn
  refine ⟨hmain, fun hinv => ?_⟩
  rw [hmain]
  exact ⟨by rw [read_char_position, hinv.1], read_char_inv l⟩

/-- Witness for the amended C3 at the byte 0x40 (`@`): one Illegal token with
literal "@", cursor advanced one character. -/
theorem illegal_byte_amended_witness :
    next_token (Lexer.new [64]) =
      (⟨TokenType.Illegal, [64]⟩, read_char (Lexer.new [64])) ∧
    (next_token (Lexer.new [64])).2.position = (Lexer.new [64]).position + 1 := by
  have h := illegal_byte_amended (Lexer.new [64]) 64 (by decide) (by decide) (by decide)
    (by decide) (by decide) (by decide)
  exact ⟨h.1, (h.2 ⟨rfl, rfl⟩).1⟩

/-- C4 counterexample: the non-ASCII byte 0xC3 = 195 (a UTF-8 lead byte) is
classified as a letter — Latin-1 0xC3 is a Unicode-alphabetic character — so
`next_token` lexes it into an Identifier token, not an Illegal one. -/
theorem non_ascii_cex :
    (128 : Nat) ≤ 195 ∧ is_letter 195 = true ∧
    (next_token (Lexer.new [195])).1 = ⟨TokenType.Ident, [195]⟩ ∧
    (next_token (Lexer.new [195])).1.kind ≠ TokenType.Illegal := by decide

/-- C4 amended: every non-ASCII byte (≥ 0x80) is a non-digit; it counts as a
letter exactly when it is Unicode-alphabetic read as Latin-1 (0xAA, 0xB5,
0xBA, 0xC0-0xD6, 0xD8-0xF6, 0xF8-0xFF); every non-ASCII byte outside that
set produces an Illegal token carrying that single byte as its literal. -/
theorem non_ascii_amended :
    (∀ b, 128 ≤ b → is_number b = false) ∧
    (∀ b, 128 ≤ b → (is_letter b = true ↔ (b = 170 ∨ b = 181 ∨ b = 186 ∨
      (192 ≤ b ∧ b ≤ 214) ∨ (216 ≤ b ∧ b ≤ 246) ∨ (248 ≤ b ∧ b ≤ 255)))) ∧
    (∀ l : Lexer, 128 ≤ l.ch → is_letter l.ch = false →
      next_token l = (⟨TokenType.Illegal, [l.ch]⟩, read_char l)) := by
  refine ⟨?_, ?_, ?_⟩
  · intro b hb
    by_contra hq
    simp only [Bool.not_eq_false] at hq
    simp only [is_number, Bool.and_eq_true, decide_eq_true_eq] at hq
    omega
  · intro b hb
    simp only [is_letter, Bool.or_eq_true, Bool.and_eq_true, decide_eq_true_eq,
      beq_iff_eq]
    omega
  · intro l hb hnl
    have h0 : l.ch ≠ 0 := by omega
    have hws : is_whitespace l.ch = false := by
      by_contra hq
      simp only [Bool.not_eq_false] at hq
      simp only [is_whitespace, Bool.or_eq_true, beq_iff_eq] at hq
      omega
    have hnn : is_number l.ch = false := by
      by_contra hq
      simp only [Bool.not_eq_false] at hq
      simp only [is_number, Bool.and_eq_true, decide_eq_true_eq] at hq
      omega
    have hcw : consume_whitespace l = l := consume_whitespace_of_neg l hws
    show next_token_core (consume_whitespace l) = _
    rw [hcw]
    exact next_token_core_illegal l h0
      ⟨by omega, by omega, by omega, by omega, by omega, by omega, by omega, by omega⟩
      hnl hnn

/-- Witness for the amended C4: 0xC8 = 200 is no digit, 0xC3 = 195 is in the
Latin-1 alphabetic set, and the non-alphabetic non-ASCII byte 0x80 = 128
lexes to an Illegal token. -/
theorem non_ascii_amended_witness :
    is_number 200 = false ∧
    (is_letter 195 = true ↔ ((195 : Nat) = 170 ∨ (195 : Nat) = 181 ∨
      (195 : Nat) = 186 ∨ ((192 : Nat) ≤ 195 ∧ (195 : Nat) ≤ 214) ∨
      ((216 : Nat) ≤ 195 ∧ (195 : Nat) ≤ 246) ∨
      ((248 : Nat) ≤ 195 ∧ (195 : Nat) ≤ 255))) ∧
    next_token (Lexer.new [128]) =
      (⟨TokenType.Illegal, [128]⟩, read_char (Lexer.new [128])) :=
  ⟨non_ascii_amended.1 200 (by decide), non_ascii_amended.2.1 195 (by decide),
    non_ascii_amended.2.2 (Lexer.new [128]) (by decide) (by decide)⟩

theorem steps_add (l : Lexer) (m : Nat) : ∀ k, steps l (m + k) = steps (steps l m) k := by
  intro k
  induction k with
  | zero => rfl
  | succ k ih =>
    show (next_token (steps l (m + k))).2 = _
    rw [ih]
    rfl

theorem exhausted_steps (l : Lexer) (h : LexInv l)
    (hex : l.input.length ≤ l.position) :
    ∀ n, LexInv (steps l n) ∧ l.input.length ≤ (steps l n).position ∧
      (steps l n).position = l.position + n := by
  intro n
  induction n with
  | zero => exact ⟨h, hex, rfl⟩
  | succ n ih =>
    obtain ⟨hinv, hexn, hpos⟩ := ih
    have hstep : next_token (steps l n) =
        (⟨TokenType.EOF, [0]⟩, read_char (steps l n)) := by
      apply next_token_exhausted _ hinv
      rwa [steps_input]
    refine ⟨next_token_inv _ hinv, ?_, ?_⟩
    · show l.input.length ≤ (next_token (steps l n)).2.position
      rw [hstep, read_char_position, hinv.1]
      omega
    · show (next_token (steps l n)).2.position = l.position + (n + 1)
      rw [hstep, read_char_position, hinv.1, hpos]
      omega

/-- C5 counterexample: on empty input the freshly constructed lexer sits at
position 0 with read_position 1, and the EOF-returning `next_token` call
moves them to 1 and 2 — the `b'\0'` arm still runs the trailing `read_char`,
so the cursor fields are not left unchanged. -/
theorem eof_advance_cex :
    (Lexer.new []).ch = 0 ∧ (Lexer.new []).position = 0 ∧
    (Lexer.new []).read_position = 1 ∧
    (next_token (Lexer.new [])).1.kind = TokenType.EOF ∧
    (next_token (Lexer.new [])).2.position = 1 ∧
    (next_token (Lexer.new [])).2.read_position = 2 := by decide

/-- C5 amended: once the input is exhausted, every `next_token` call returns
an EndOfInput token whose literal is the sentinel character, and the current
character stays the sentinel across calls — but each such call still
advances `position` and `read_position` by one (the EOF arm performs the
trailing advance), so those fields are not unchanged. -/
theorem eof_stable_amended (l : Lexer) (h : LexInv l)
    (hex : l.input.length ≤ l.position) :
    ∀ n : Nat,
      next_token (steps l n) = (⟨TokenType.EOF, [0]⟩, read_char (steps l n)) ∧
      (steps l n).ch = 0 ∧
      (steps l n).position = l.position + n ∧
      (steps l n).read_position = l.position + n + 1 := by
  intro n
  obtain ⟨hinv, hexn, hpos⟩ := exhausted_steps l h hex n
  have hstep := next_token_exhausted _ hinv (by rwa [steps_input])
  refine ⟨hstep, ?_, hpos, ?_⟩
  · exact inv_ch_zero _ hinv (by rw [steps_input]; exact hexn)
  · rw [hinv.1, hpos]

/-- Witness for the amended C5 on empty input after two calls: the third call
still returns EOF, the char is still the sentinel, and the cursors have
advanced by exactly one per call. -/
theorem eof_stable_amended_witness :
    next_token (steps (Lexer.new []) 2) =
      (⟨TokenType.EOF, [0]⟩, read_char (steps (Lexer.new []) 2)) ∧
    (steps (Lexer.new []) 2).ch = 0 ∧
    (steps (Lexer.new []) 2).position = (Lexer.new []).position + 2 ∧
    (steps (Lexer.new []) 2).read_position = (Lexer.new []).position + 2 + 1 :=
  eof_stable_amended (Lexer.new []) ⟨rfl, rfl⟩ (by decide) 2

/-- C6 counterexample: on empty input, after the single EOF-returning call
the lexer has readPosition = 2, which exceeds length(source) + 1 = 1 — the
claimed bound does not survive calls past exhaustion. -/
theorem cursor_bound_cex :
    (next_token (Lexer.new [])).2.read_position = 2 ∧
    ¬((next_token (Lexer.new [])).2.read_position ≤ ([] : List Nat).length + 1) := by
  decide

/-- C6 amended: readPosition = position + 1 holds immediately after any
single-character advance and at every state reached by construction plus any
number of next_token calls (hence position ≤ readPosition always); the bound
readPosition ≤ length(source) + 1 holds after construction and for as long
as no call has returned EndOfInput, but EOF-returning calls past exhaustion
advance the cursors beyond that bound. -/
theorem cursor_invariant_amended (input : List Nat) :
    (∀ l : Lexer, (read_char l).read_position = (read_char l).position + 1) ∧
    (∀ n, (steps (Lexer.new input) n).read_position =
      (steps (Lexer.new input) n).position + 1) ∧
    (∀ n, (∀ k, k < n →
        (next_token (steps (Lexer.new input) k)).1.kind ≠ TokenType.EOF) →
      (steps (Lexer.new input) n).position ≤ input.length ∧
      (steps (Lexer.new input) n).read_position ≤ input.length + 1) := by
  refine ⟨fun l => rfl, fun n => (steps_inv _ (new_inv input) n).1, ?_⟩
  intro n
  induction n with
  | zero =>
    intro _
    constructor
    · exact Nat.zero_le _
    · exact Nat.succ_le_succ (Nat.zero_le _)
  | succ n ih =>
    intro hcalls
    have hprev := ih (fun k hk => hcalls k (by omega))
    have hinv := steps_inv _ (new_inv input) n
    have hkind : (next_token (steps (Lexer.new input) n)).1.kind ≠ TokenType.EOF :=
      hcalls n (by omega)
    have hpos2 : (steps (Lexer.new input) n).position ≤
        (steps (Lexer.new input) n).input.length := by
      rw [steps_input]
      exact hprev.1
    have hle : (next_token (steps (Lexer.new input) n)).2.position ≤ input.length := by
      have hfin := next_token_pos_le _ hinv hpos2 hkind
      rwa [steps_input] at hfin
    refine ⟨hle, ?_⟩
    have hinv2 := steps_inv _ (new_inv input) (n + 1)
    have e : (steps (Lexer.new input) (n + 1)).position =
        (next_token (steps (Lexer.new input) n)).2.position := rfl
    rw [hinv2.1, e]
    omega

/-- Witness for the amended C6 on the input "++" after its two Plus-token
calls: the cursor pair is coherent and still within the bound. -/
theorem cursor_invariant_amended_witness :
    (read_char (Lexer.new [43, 43])).read_position =
      (read_char (Lexer.new [43, 43])).position + 1 ∧
    (steps (Lexer.new [43, 43]) 2).read_position =
      (steps (Lexer.new [43, 43]) 2).position + 1 ∧
    ((steps (Lexer.new [43, 43]) 2).position ≤ [43, 43].length ∧
      (steps (Lexer.new [43, 43]) 2).read_position ≤ [43, 43].length + 1) := by
  have h := cursor_invariant_amended [43, 43]
  exact ⟨h.1 _, h.2.1 2, h.2.2 2 (by decide)⟩

/-- C7 counterexample: with input "\0+" the initial current char is the
sentinel 0, yet after one next_token call it holds the real character '+' —
an embedded NUL byte makes the sentinel revert. -/
theorem sentinel_revert_cex :
    (steps (Lexer.new [0, 43]) 0).ch = 0 ∧
    (steps (Lexer.new [0, 43]) 1).ch = 43 := by decide

/-- C7 amended: for every input containing no NUL byte, once currentChar is
the sentinel 0 in a reachable state it stays the sentinel in every later
state (monotonic scan, no backtracking); an embedded NUL byte breaks this. -/
theorem sentinel_monotone_amended (input : List Nat) (hnz : ∀ b ∈ input, b ≠ 0)
    (m n : Nat) (hmn : m ≤ n) (hm : (steps (Lexer.new input) m).ch = 0) :
    (steps (Lexer.new input) n).ch = 0 := by
  have hinv := steps_inv _ (new_inv input) m
  have hexm : input.length ≤ (steps (Lexer.new input) m).position := by
    by_contra hlt
    push_neg at hlt
    have hlen : (steps (Lexer.new input) m).position <
        (steps (Lexer.new input) m).input.length := by
      rw [steps_input]
      exact hlt
    have hmem0 : (0 : Nat) ∈ (steps (Lexer.new input) m).input := by
      rw [← hm, hinv.2, List.getD_eq_getElem _ _ hlen]
      exact List.getElem_mem _
    rw [steps_input] at hmem0
    exact hnz 0 hmem0 rfl
  obtain ⟨k, rfl⟩ : ∃ k, n = m + k := ⟨n - m, by omega⟩
  have hrest := exhausted_steps (steps (Lexer.new input) m) hinv
    (by rw [steps_input]; exact hexm) k
  rw [steps_add]
  exact inv_ch_zero _ hrest.1 (by rw [steps_input]; exact hrest.2.1)

/-- Witness for the amended C7 on the NUL-free input "+": the sentinel is
reached after one call and persists at the next state. -/
theorem sentinel_monotone_amended_witness :
    (steps (Lexer.new [43]) 2).ch = 0 :=
  sentinel_monotone_amended [43] (by decide) 1 2 (by decide) (by decide)

theorem lex_go_of_eof (l : Lexer) (h : (next_token l).1.kind = TokenType.EOF) :
    ∀ f, lex_go f l = [] := by
  intro f
  cases f with
  | zero => rfl
  | succ f =>
    show (if (next_token l).1.kind = TokenType.EOF then [] else
      (next_token l).1 :: lex_go f (next_token l).2) = []
    rw [if_pos h]

theorem lex_go_fuel : ∀ (f f' : Nat) (l : Lexer), LexInv l →
    l.input.length + 1 ≤ l.position + f → l.input.length + 1 ≤ l.position + f' →
    lex_go f l = lex_go f' l := by
  intro f
  induction f with
  | zero =>
    intro f' l h hf hf'
    have hkind : (next_token l).1.kind = TokenType.EOF := by
      rw [next_token_exhausted l h (by omega)]
    exact (lex_go_of_eof l hkind f').symm
  | succ f ih =>
    intro f' l h hf hf'
    by_cases hkind : (next_token l).1.kind = TokenType.EOF
    · rw [lex_go_of_eof l hkind, lex_go_of_eof l hkind]
    · have hpos : l.position ≤ l.input.length := by
        by_contra hq
        push_neg at hq
        have hex := next_token_exhausted l h (by omega)
        rw [hex] at hkind
        exact hkind rfl
      obtain ⟨g, rfl⟩ : ∃ g, f' = g + 1 := by
        cases f' with
        | zero => omega
        | succ g => exact ⟨g, rfl⟩
      show (if (next_token l).1.kind = TokenType.EOF then [] else
          (next_token l).1 :: lex_go f (next_token l).2) =
        (if (next_token l).1.kind = TokenType.EOF then [] else
          (next_token l).1 :: lex_go g (next_token l).2)
      rw [if_neg hkind, if_neg hkind]
      congr 1
      apply ih g (next_token l).2 (next_token_inv l h) <;>
        · have hgt := next_token_pos_gt l h
          have hple := next_token_pos_le l h hpos hkind
          rw [next_token_input]
          omega

theorem lex_go_no_eof : ∀ (f : Nat) (l : Lexer) (t : Token), t ∈ lex_go f l →
    t.kind ≠ TokenType.EOF := by
  intro f
  induction f with
  | zero =>
    intro l t ht
    exact absurd ht (List.not_mem_nil t)
  | succ f ih =>
    intro l t ht
    by_cases hkind : (next_token l).1.kind = TokenType.EOF
    · rw [lex_go_of_eof l hkind] at ht
      exact absurd ht (List.not_mem_nil t)
    · have e : lex_go (f + 1) l = (next_token l).1 :: lex_go f (next_token l).2 := by
        show (if (next_token l).1.kind = TokenType.EOF then [] else
          (next_token l).1 :: lex_go f (next_token l).2) = _
        rw [if_neg hkind]
      rw [e] at ht
      rcases List.mem_cons.mp ht with rfl | hmem
      · exact hkind
      · exact ih _ _ hmem

/-- C8: `lex` terminates on every finite input — any fuel of at least
`input.length + 1` steps yields the same, already-stable token list — and
its result, the tokens produced strictly before the first EndOfInput token,
never contains a token of kind EndOfInput. -/
theorem lex_terminates (input : List Nat) :
    (∀ f, input.length + 1 ≤ f → lex_go f (Lexer.new input) = lex input) ∧
    (∀ t ∈ lex input, t.kind ≠ TokenType.EOF) := by
  constructor
  · intro f hf
    show lex_go f (Lexer.new input) = lex_go (input.length + 1) (Lexer.new input)
    apply lex_go_fuel f (input.length + 1) (Lexer.new input) (new_inv input)
    · show input.length + 1 ≤ 0 + f
      omega
    · show input.length + 1 ≤ 0 + (input.length + 1)
      omega
  · intro t ht
    exact lex_go_no_eof _ _ t ht

/-- Witness for C8 on the input "+": extra fuel changes nothing and the one
returned token is not EndOfInput. -/
theorem lex_terminates_witness :
    lex_go 5 (Lexer.new [43]) = lex [43] ∧
    (⟨TokenType.Plus, [43]⟩ : Token).kind ≠ TokenType.EOF :=
  ⟨(lex_terminates [43]).1 5 (by decide),
    (lex_terminates [43]).2 ⟨TokenType.Plus, [43]⟩ (by decide)⟩

/-- C10: at every reachable `read_identifier`/`read_number` call site — the
post-whitespace state of the (n+1)-st `next_token` call on any input — the
Rust slice `input[position..self.position]` is in bounds: the start index
(the recorded `position`) is at most the loop's final `position`, which is at
most the input length.  Together with the guarded indexing in `read_char`,
no call to `new`, `next_token` or `lex` can panic. -/
theorem slice_bounds_safe (input : List Nat) (n : Nat) :
    (is_letter (consume_whitespace (steps (Lexer.new input) n)).ch = true →
      (consume_whitespace (steps (Lexer.new input) n)).position ≤
        (read_identifier (consume_whitespace (steps (Lexer.new input) n))).2.position ∧
      (read_identifier (consume_whitespace (steps (Lexer.new input) n))).2.position ≤
        input.length) ∧
    (is_number (consume_whitespace (steps (Lexer.new input) n)).ch = true →
      (consume_whitespace (steps (Lexer.new input) n)).position ≤
        (read_number (consume_whitespace (steps (Lexer.new input) n))).2.position ∧
      (read_number (consume_whitespace (steps (Lexer.new input) n))).2.position ≤
        input.length) := by
  set s := consume_whitespace (steps (Lexer.new input) n) with hs
  have hinv : LexInv s := consume_whitespace_inv _ (steps_inv _ (new_inv input) n)
  have hsin : s.input = input := by
    rw [hs, consume_whitespace_input, steps_input]
    rfl
  constructor
  · intro hl
    have hlt : s.position < s.input.length :=
      inv_position_lt s hinv (is_letter_ne_zero _ hl)
    constructor
    · rw [read_identifier_snd]
      exact scan_go_pos_ge _ _ s hinv
    · rw [read_identifier_snd, hsin]
      have hb := scan_go_pos_le is_letter is_letter_ne_zero (input.length + 2) s hinv
        (le_of_lt hlt)
      rwa [hsin] at hb
  · intro hn
    have hlt : s.position < s.input.length :=
      inv_position_lt s hinv (is_number_ne_zero _ hn)
    constructor
    · rw [read_number_snd]
      exact scan_go_pos_ge _ _ s hinv
    · rw [read_number_snd, hsin]
      have hb := scan_go_pos_le is_number is_number_ne_zero (input.length + 2) s hinv
        (le_of_lt hlt)
      rwa [hsin] at hb

/-- Witness for C10 with the identifier site on input "a" and the number
site on input "5", both at the first call. -/
theorem slice_bounds_safe_witness :
    ((consume_whitespace (steps (Lexer.new [97]) 0)).position ≤
        (read_identifier (consume_whitespace (steps (Lexer.new [97]) 0))).2.position ∧
      (read_identifier (consume_whitespace (steps (Lexer.new [97]) 0))).2.position ≤
        [97].length) ∧
    ((consume_whitespace (steps (Lexer.new [53]) 0)).position ≤
        (read_number (consume_whitespace (steps (Lexer.new [53]) 0))).2.position ∧
      (read_number (consume_whitespace (steps (Lexer.new [53]) 0))).2.position ≤
        [53].length) :=
  ⟨(slice_bounds_safe [97] 0).1 (by decide), (slice_bounds_safe [53] 0).2 (by decide)⟩

theorem getD_append_nul (i1 i2 : List Nat) (p : Nat) (hp : p ≤ i1.length) :
    (i1 ++ 0 :: i2).getD p 0 = i1.getD p 0 := by
  rcases Nat.lt_or_ge p i1.length with h | h
  · exact List.getD_append _ _ _ _ h
  · have hp2 : p = i1.length := le_antisymm hp h
    subst hp2
    rw [List.getD_append_right _ _ _ _ (le_refl _),
      List.getD_eq_default _ _ (le_refl _), Nat.sub_self]
    rfl

theorem take_drop_append_nul (i1 i2 : List Nat) (p k : Nat) (hk : p + k ≤ i1.length) :
    ((i1 ++ 0 :: i2).drop p).take k = (i1.drop p).take k := by
  have h1 : p ≤ i1.length := by omega
  rw [List.drop_append_of_le_length h1,
    List.take_append_of_le_length (by rw [List.length_drop]; omega)]

/-- Correspondence between lexing `i1 ++ 0 :: i2` and lexing `i1` alone: the
states agree on the cursor, are coherent, and the cursor stays within `i1`;
there the embedded NUL makes the long input indistinguishable from the short
input's exhaustion. -/
def NulSim (i1 i2 : List Nat) (l m : Lexer) : Prop :=
  l.input = i1 ++ 0 :: i2 ∧ m.input = i1 ∧ LexInv l ∧ LexInv m ∧
  l.position = m.position ∧ m.position ≤ i1.length

theorem nulsim_ch (i1 i2 : List Nat) (l m : Lexer) (h : NulSim i1 i2 l m) :
    l.ch = m.ch := by
  obtain ⟨hl, hm, hil, him, hpos, hle⟩ := h
  rw [hil.2, him.2, hl, hm, hpos, getD_append_nul i1 i2 m.position hle]

theorem nulsim_read_char (i1 i2 : List Nat) (l m : Lexer) (h : NulSim i1 i2 l m)
    (hlt : m.position < i1.length) :
    NulSim i1 i2 (read_char l) (read_char m) := by
  obtain ⟨hl, hm, hil, him, hpos, hle⟩ := h
  refine ⟨hl, hm, read_char_inv l, read_char_inv m, ?_, ?_⟩
  · rw [read_char_position, read_char_position, hil.1, him.1, hpos]
  · rw [read_char_position, him.1]
    omega

theorem nulsim_scan (p : Nat → Bool) (hp : ∀ c, p c = true → c ≠ 0)
    (i1 i2 : List Nat) : ∀ (f : Nat) (l m : Lexer), NulSim i1 i2 l m →
      NulSim i1 i2 (scan_go p f l) (scan_go p f m) := by
  intro f
  induction f with
  | zero => intro l m h; exact h
  | succ f ih =>
    intro l m h
    have hch := nulsim_ch i1 i2 l m h
    show NulSim i1 i2 (if p l.ch then scan_go p f (read_char l) else l)
      (if p m.ch then scan_go p f (read_char m) else m)
    rw [hch]
    by_cases hg : p m.ch = true
    · rw [if_pos hg, if_pos hg]
      have hne := hp _ hg
      have hlt : m.position < i1.length := by
        have hq := inv_position_lt m h.2.2.2.1 hne
        rwa [h.2.1] at hq
      exact ih _ _ (nulsim_read_char i1 i2 l m h hlt)
    · rw [if_neg hg, if_neg hg]
      exact h

theorem nulsim_cw (i1 i2 : List Nat) (l m : Lexer) (h : NulSim i1 i2 l m) :
    NulSim i1 i2 (consume_whitespace l) (consume_whitespace m) := by
  have hlen : l.input.length = i1.length + (i2.length + 1) := by
    rw [h.1, List.length_append, List.length_cons]
  have hlift : scan_go is_whitespace (m.input.length + 2) m =
      scan_go is_whitespace (l.input.length + 2) m :=
    scan_go_fuel is_whitespace is_whitespace_ne_zero _ _ m h.2.2.2.1 (by omega)
      (by rw [hlen, h.2.1]; omega)
  show NulSim i1 i2 (scan_go is_whitespace (l.input.length + 2) l)
    (scan_go is_whitespace (m.input.length + 2) m)
  rw [hlift]
  exact nulsim_scan is_whitespace is_whitespace_ne_zero i1 i2 _ l m h

theorem nulsim_read_identifier (i1 i2 : List Nat) (l m : Lexer)
    (h : NulSim i1 i2 l m) :
    (read_identifier l).1 = (read_identifier m).1 ∧
    NulSim i1 i2 (read_identifier l).2 (read_identifier m).2 := by
  have hlen : l.input.length = i1.length + (i2.length + 1) := by
    rw [h.1, List.length_append, List.length_cons]
  have hlift : scan_go is_letter (m.input.length + 2) m =
      scan_go is_letter (l.input.length + 2) m :=
    scan_go_fuel is_letter is_letter_ne_zero _ _ m h.2.2.2.1 (by omega)
      (by rw [hlen, h.2.1]; omega)
  have hsim := nulsim_scan is_letter is_letter_ne_zero i1 i2 (l.input.length + 2) l m h
  constructor
  · rw [read_identifier_fst, read_identifier_fst, hlift]
    obtain ⟨hsl, hsm, _, _, hspos, hsle⟩ := hsim
    rw [hspos, scan_go_input, scan_go_input, h.2.2.2.2.1, h.1, h.2.1]
    rw [h.1] at hsle
    have hple := h.2.2.2.2.2
    exact take_drop_append_nul i1 i2 _ _ (by omega)
  · rw [read_identifier_snd, read_identifier_snd, hlift]
    exact hsim

theorem nulsim_read_number (i1 i2 : List Nat) (l m : Lexer)
    (h : NulSim i1 i2 l m) :
    (read_number l).1 = (read_number m).1 ∧
    NulSim i1 i2 (read_number l).2 (read_number m).2 := by
  have hlen : l.input.length = i1.length + (i2.length + 1) := by
    rw [h.1, List.length_append, List.length_cons]
  have hlift : scan_go is_number (m.input.length + 2) m =
      scan_go is_number (l.input.length + 2) m :=
    scan_go_fuel is_number is_number_ne_zero _ _ m h.2.2.2.1 (by omega)
      (by rw [hlen, h.2.1]; omega)
  have hsim := nulsim_scan is_number is_number_ne_zero i1 i2 (l.input.length + 2) l m h
  constructor
  · rw [read_number_fst, read_number_fst, hlift]
    obtain ⟨hsl, hsm, _, _, hspos, hsle⟩ := hsim
    rw [hspos, scan_go_input, scan_go_input, h.2.2.2.2.1, h.1, h.2.1]
    rw [h.1] at hsle
    have hple := h.2.2.2.2.2
    exact take_drop_append_nul i1 i2 _ _ (by omega)
  · rw [read_number_snd, read_number_snd, hlift]
    exact hsim

theorem nulsim_next_token (i1 i2 : List Nat) (l m : Lexer) (h : NulSim i1 i2 l m) :
    (next_token l).1 = (next_token m).1 ∧
    ((next_token m).1.kind ≠ TokenType.EOF →
      NulSim i1 i2 (next_token l).2 (next_token m).2) := by
  have hcw := nulsim_cw i1 i2 l m h
  have hch : (consume_whitespace l).ch = (consume_whitespace m).ch :=
    nulsim_ch i1 i2 _ _ hcw
  show (next_token_core (consume_whitespace l)).1 =
      (next_token_core (consume_whitespace m)).1 ∧
    ((next_token_core (consume_whitespace m)).1.kind ≠ TokenType.EOF →
      NulSim i1 i2 (next_token_core (consume_whitespace l)).2
        (next_token_core (consume_whitespace m)).2)
  by_cases h0 : (consume_whitespace m).ch = 0
  · rw [next_token_core_eof _ (by rw [hch]; exact h0), next_token_core_eof _ h0]
    exact ⟨rfl, fun hq => absurd rfl hq⟩
  by_cases hlet : is_letter (consume_whitespace m).ch = true
  · have hid := nulsim_read_identifier i1 i2 _ _ hcw
    have hletl : is_letter (consume_whitespace l).ch = true := by
      rw [hch]
      exact hlet
    cases hk : is_keyword (read_identifier (consume_whitespace m)).1 with
    | some t =>
      have hkl : is_keyword (read_identifier (consume_whitespace l)).1 = some t := by
        rw [hid.1]
        exact hk
      rw [next_token_core_letter_some _ hletl t hkl, next_token_core_letter_some _ hlet t hk]
      exact ⟨rfl, fun _ => hid.2⟩
    | none =>
      have hkl : is_keyword (read_identifier (consume_whitespace l)).1 = none := by
        rw [hid.1]
        exact hk
      rw [next_token_core_letter_none _ hletl hkl, next_token_core_letter_none _ hlet hk]
      refine ⟨?_, fun _ => hid.2⟩
      rw [hid.1]
  by_cases hnum : is_number (consume_whitespace m).ch = true
  · have hnl : is_letter (consume_whitespace m).ch = false := by simpa using hlet
    have hnll : is_letter (consume_whitespace l).ch = false := by
      rw [hch]
      exact hnl
    have hnuml : is_number (consume_whitespace l).ch = true := by
      rw [hch]
      exact hnum
    have hid := nulsim_read_number i1 i2 _ _ hcw
    rw [next_token_core_number _ hnll hnuml, next_token_core_number _ hnl hnum]
    refine ⟨?_, fun _ => hid.2⟩
    rw [hid.1]
  · have hnl : is_letter (consume_whitespace m).ch = false := by simpa using hlet
    have hnn : is_number (consume_whitespace m).ch = false := by simpa using hnum
    have hnll : is_letter (consume_whitespace l).ch = false := by
      rw [hch]
      exact hnl
    have hnnl : is_number (consume_whitespace l).ch = false := by
      rw [hch]
      exact hnn
    obtain ⟨hkL, hiffL⟩ := next_token_core_single _ hnll hnnl
    obtain ⟨hkM, hiffM⟩ := next_token_core_single _ hnl hnn
    rw [hkL, hkM, hch]
    refine ⟨rfl, fun hq => ?_⟩
    have hq2 : single_kind (consume_whitespace m).ch ≠ TokenType.EOF := hq
    have hne0 : (consume_whitespace m).ch ≠ 0 := fun hz => hq2 (hiffM.mpr hz)
    have hlt : (consume_whitespace m).position < i1.length := by
      have hb := inv_position_lt _ hcw.2.2.2.1 hne0
      rwa [hcw.2.1] at hb
    exact nulsim_read_char i1 i2 _ _ hcw hlt

theorem nulsim_lex_go (i1 i2 : List Nat) : ∀ (f : Nat) (l m : Lexer),
    NulSim i1 i2 l m → lex_go f l = lex_go f m := by
  intro f
  induction f with
  | zero => intro l m _; rfl
  | succ f ih =>
    intro l m h
    obtain ⟨ht, hpost⟩ := nulsim_next_token i1 i2 l m h
    show (if (next_token l).1.kind = TokenType.EOF then [] else
        (next_token l).1 :: lex_go f (next_token l).2) =
      (if (next_token m).1.kind = TokenType.EOF then [] else
        (next_token m).1 :: lex_go f (next_token m).2)
    rw [ht]
    by_cases hk : (next_token m).1.kind = TokenType.EOF
    · rw [if_pos hk, if_pos hk]
    · rw [if_neg hk, if_neg hk]
      congr 1
      exact ih _ _ (hpost hk)

/-- C9: an embedded NUL byte is treated exactly like end of input in the two
observable senses of the claim: whenever the current char is the NUL
sentinel, `next_token` returns an EndOfInput token, and `lex` of
`i1 ++ 0x00 :: i2` equals `lex i1` — every token after the first NUL is
silently discarded. -/
theorem nul_truncates (i1 i2 : List Nat) :
    lex (i1 ++ 0 :: i2) = lex i1 ∧
    (∀ l : Lexer, l.ch = 0 → (next_token l).1 = ⟨TokenType.EOF, [0]⟩) := by
  constructor
  · have hsim0 : NulSim i1 i2 (Lexer.new (i1 ++ 0 :: i2)) (Lexer.new i1) :=
      ⟨rfl, rfl, new_inv _, new_inv _, rfl, Nat.zero_le _⟩
    show lex_go ((i1 ++ 0 :: i2).length + 1) (Lexer.new (i1 ++ 0 :: i2)) =
      lex_go (i1.length + 1) (Lexer.new i1)
    rw [nulsim_lex_go i1 i2 _ _ _ hsim0]
    apply lex_go_fuel _ _ _ (new_inv i1)
    · show i1.length + 1 ≤ 0 + ((i1 ++ 0 :: i2).length + 1)
      rw [List.length_append, List.length_cons]
      omega
    · show i1.length + 1 ≤ 0 + (i1.length + 1)
      omega
  · intro l h0
    have hcw : consume_whitespace l = l :=
      consume_whitespace_of_neg l (by rw [h0]; decide)
    show (next_token_core (consume_whitespace l)).1 = _
    rw [hcw, next_token_core_eof l h0]

/-- Witness for C9: lexing "+\0;" gives exactly the tokens of "+", and a
lexer sitting on a NUL char returns the EOF token. -/
theorem nul_truncates_witness :
    lex ([43] ++ 0 :: [59]) = lex [43] ∧
    (next_token (Lexer.new [0])).1 = ⟨TokenType.EOF, [0]⟩ :=
  ⟨(nul_truncates [43] [59]).1, (nul_truncates [] []).2 (Lexer.new [0]) rfl⟩
